import Mathlib

/-!
Verification development for the Lempicka Smart Sync engine
(`src/core/sync.js`).  The engine's pure logic is shallowly embedded:

* filenames are `String`s, processed as `List Char`;
* relative paths are lists of path segments (`List String`) — the
  JavaScript code builds them with `path.join` from `readdir` entry names,
  which never contain a separator, so `path.dirname` / `path.basename` /
  `path.normalize` become `dropLast` / last element / identity on this
  representation;
* the filesystem seen by a copy transaction is a finite association list
  from paths to byte lists, and the environment's failures (unreadable
  source, interrupted stream, failing unlink or rename) are injected
  through an explicit script, mirroring the places the JavaScript code
  can receive an exception;
* JavaScript numbers that hold file sizes, byte counts and parsed
  versions are modelled as `Nat` (the code only ever adds non-negative
  quantities to them; `Number.parseInt` precision loss past 2^53 is out
  of scope).
-/

namespace LempickaSync

/-! ## Characters and digit runs -/

/-- `\d` of a JavaScript regex without the `u` flag: exactly ASCII `0-9`. -/
def isDigitChar (c : Char) : Bool :=
  '0' ≤ c && c ≤ '9'

/-- The four characters `.` does not match in a JavaScript regex
(line terminators). -/
def isLineTerminator (c : Char) : Bool :=
  c = '\n' || c = '\r' || c = ' ' || c = ' '

/-- Base-10 value of a digit run, as `Number.parseInt(digits, 10)`
(leading zeros tolerated). -/
def digitsVal (ds : List Char) : Nat :=
  ds.foldl (fun n c => n * 10 + (c.toNat - '0'.toNat)) 0

/-! ## `path.extname` on separator-free names -/

/-- Split a name at its last dot: `some (pre, suf)` when
`s = pre ++ '.' :: suf` with `suf` dot-free; `none` when `s` has no dot. -/
def splitLastDot : List Char → Option (List Char × List Char)
  | [] => none
  | c :: s =>
    match splitLastDot s with
    | some (pre, suf) => some (c :: pre, suf)
    | none => if c = '.' then some ([], s) else none

/-- Node's `path.extname`, specialised to separator-free strings (the
only inputs the engine passes it: `readdir` entry names).  The extension
is the suffix from the last dot, except that a lone leading dot
(dotfiles such as `.bashrc`) and the exact name `..` yield the empty
extension — the residue of Node's `startDot` / `preDotState` guard for
inputs without separators. -/
def extname (s : List Char) : List Char :=
  match splitLastDot s with
  | none => []
  | some (pre, suf) =>
    if pre = [] then []
    else if pre = ['.'] && suf = [] then []
    else '.' :: suf

/-- `hasNormalExtension` from `sync.js`: `path.extname(fileName).length > 1`. -/
def hasNormalExtension (name : String) : Bool :=
  (extname name.toList).length > 1

/-- `isHiddenName` from `sync.js`: the name starts with a dot. -/
def isHiddenName (name : String) : Bool :=
  match name.toList with
  | '.' :: _ => true
  | _ => false

/-- The `IGNORED_FILE_NAMES` set of `sync.js`. -/
def ignoredFileNames : List String :=
  [".ds_store", "thumbs.db", "desktop.ini", "icon\r", "sync-history.log"]

/-- `name.toLowerCase()`, written as a character map (the compared
names are ASCII, where `Char.toLower` agrees with JavaScript). -/
def lowerName (name : String) : String :=
  ⟨name.toList.map Char.toLower⟩

/-- `isLikelySystemFile` from `sync.js`: lowercase name is in the ignored set. -/
def isLikelySystemFile (name : String) : Bool :=
  ignoredFileNames.contains (lowerName name)

/-! ## The versioned-name stem match

`sync.js` applies `/^(.*)_v(\d+)$/i` to the stem (name minus extension).
A JavaScript regex without the `m` flag anchors `^`/`$` at the string's
very ends, `.` refuses line terminators, and greediness forces the
unique reading: the digit group is the maximal trailing digit run
(a shorter suffix would be preceded by a digit, never by `v`), the two
characters before it must be `_` then `v`/`V`, and everything before
them — the captured base stem — must be free of line terminators. -/

/-- Match `/^(.*)_v(\d+)$/i` against a stem; `some (baseStem, digits)`
on success. -/
def stemVersionMatch (s : List Char) : Option (List Char × List Char) :=
  let r := s.reverse
  let dR := r.takeWhile isDigitChar
  if dR.isEmpty then none
  else
    match r.drop dR.length with
    | v :: '_' :: bR =>
      if (v = 'v' || v = 'V') && bR.all (fun c => !isLineTerminator c) then
        some (bR.reverse, dR.reverse)
      else none
    | _ => none

/-- Result record of `parseVersionedName`. -/
structure ParsedName where
  targetFileName : String
  version : Nat
  strippedStem : String
  isVersioned : Bool
  deriving Repr, DecidableEq

/-- `path.basename(fileName, ext)` for `ext = path.extname(fileName)`:
drop the extension suffix. -/
def stemOf (s : List Char) : List Char :=
  s.take (s.length - (extname s).length)

/-- `parseVersionedName` from `sync.js`: strip `path.extname`, match the
stem against `/^(.*)_v(\d+)$/i`, and either rebuild
`baseStem + ext` with the parsed version or return the name mapped to
itself with version 0. -/
def parseVersionedName (fileName : String) : ParsedName :=
  match stemVersionMatch (stemOf fileName.toList) with
  | none =>
    { targetFileName := fileName
      version := 0
      strippedStem := ⟨stemOf fileName.toList⟩
      isVersioned := false }
  | some (b, d) =>
    { targetFileName := ⟨b ++ extname fileName.toList⟩
      version := digitsVal d
      strippedStem := ⟨b⟩
      isVersioned := true }

/-! ## The spec's versioned-name grammar

The specification instead matches the whole filename against
`/^(.*)_v(\d+)\.([^.]+)$/i`.  Because `([^.]+)` must be dot-free and
reach the end, the dot it consumes is the last dot of the name; the rest
is the stem match above on the part before that dot.  This definition
follows the spec's words and is compared against `parseVersionedName`. -/

/-- The spec's grammar `^(stem)_v(digits).(ext)$`:
`some (stem, digits, ext)` when the whole name matches. -/
def specGrammarMatch (s : List Char) : Option (List Char × List Char × List Char) :=
  match splitLastDot s with
  | none => none
  | some (pre, suf) =>
    if suf.isEmpty then none
    else (stemVersionMatch pre).map (fun p => (p.1, p.2, suf))

example : parseVersionedName "notes.txt" =
    { targetFileName := "notes.txt", version := 0,
      strippedStem := "notes", isVersioned := false } := by decide

example : parseVersionedName "notes_v12.txt" =
    { targetFileName := "notes.txt", version := 12,
      strippedStem := "notes", isVersioned := true } := by decide

example : parseVersionedName "a_v1" =
    { targetFileName := "a", version := 1,
      strippedStem := "a", isVersioned := true } := by decide

example : specGrammarMatch "a_v1".toList = none := by decide

example : (specGrammarMatch "notes_v12.txt".toList).isSome = true := by decide

/-! ## Scanned files and the compare plan

`walkFiles` yields `{ fullPath, relativePath, size }` records; relative
paths are modelled as segment lists (see the header).  `buildComparePlan`'s
pure core — steps 2–5 of the planner — is `comparePlanItems` below; the
absolute `sourcePath` / `targetPath` fields are the respective roots
prefixed onto the relative paths and are omitted from the model. -/

/-- One record of a `walkFiles` scan: relative path (as segments) and
size in bytes. -/
structure ScanFile where
  relPath : List String
  size : Nat
  deriving Repr, DecidableEq

/-- The file-name component of a scanned relative path
(`path.basename(lf.relativePath)`). -/
def fileNameOf (rel : List String) : String :=
  rel.getLastD ""

/-- `path.normalize(path.join(dirname(rel), parsed.targetFileName))` on
segment lists: replace the last segment by the parsed target name. -/
def targetRelOf (rel : List String) : List String :=
  rel.dropLast ++ [(parseVersionedName (fileNameOf rel)).targetFileName]

/-- Parsed version of a scanned left file. -/
def versionOf (rel : List String) : Nat :=
  (parseVersionedName (fileNameOf rel)).version

/-- The value stored in `bestByTargetRelativePath` for one left file
(the map's key, `targetRelativePath`, is kept alongside it). -/
structure BestEntry where
  sourceRelativePath : List String
  sourceSize : Nat
  targetRelativePath : List String
  targetFileName : String
  version : Nat
  isVersioned : Bool
  deriving Repr, DecidableEq

/-- Build the stored candidate record for a left file. -/
def mkBestEntry (lf : ScanFile) : BestEntry :=
  let parsed := parseVersionedName (fileNameOf lf.relPath)
  { sourceRelativePath := lf.relPath
    sourceSize := lf.size
    targetRelativePath := targetRelOf lf.relPath
    targetFileName := parsed.targetFileName
    version := parsed.version
    isVersioned := parsed.isVersioned }

/-- `Map.get` on an insertion-ordered association list. -/
def findEntry : List (List String × BestEntry) → List String → Option BestEntry
  | [], _ => none
  | p :: m, t => if p.1 = t then some p.2 else findEntry m t

/-- `Map.set` when the key is present: replace in place, preserving the
key's original insertion position (JavaScript `Map` semantics). -/
def replaceEntry (m : List (List String × BestEntry)) (t : List String)
    (e : BestEntry) : List (List String × BestEntry) :=
  m.map (fun p => if p.1 = t then (t, e) else p)

/-- One iteration of the `for (const lf of leftFiles)` loop of
`buildComparePlan`: keep the stored candidate unless the new one's
version is strictly greater. -/
def bestStep (m : List (List String × BestEntry)) (lf : ScanFile) :
    List (List String × BestEntry) :=
  let t := targetRelOf lf.relPath
  match findEntry m t with
  | none => m ++ [(t, mkBestEntry lf)]
  | some prev =>
    if prev.version < (parseVersionedName (fileNameOf lf.relPath)).version then
      replaceEntry m t (mkBestEntry lf)
    else m

/-- `bestByTargetRelativePath` after processing the whole left scan. -/
def bestByTarget (leftFiles : List ScanFile) : List (List String × BestEntry) :=
  leftFiles.foldl bestStep []

/-- The `rightSizeByRelativePath` map: built by `Map.set` over the right
scan in order, so a later record with the same path wins. -/
def rightSizeOf (rightFiles : List ScanFile) (t : List String) : Option Nat :=
  rightFiles.foldl (fun acc rf => if rf.relPath = t then some rf.size else acc) none

/-- A plan item (absolute-path fields omitted; see `ScanFile`). -/
structure PlanItem where
  sourceRelativePath : List String
  sourceSize : Nat
  targetRelativePath : List String
  version : Nat
  destinationExists : Bool
  destinationSize : Option Nat
  deriving Repr, DecidableEq

/-- Emit the plan item for one `bestByTargetRelativePath` entry, or
`none` when the destination already has the source's size (the loop's
`continue`). -/
def planItemFor (rightFiles : List ScanFile) (p : List String × BestEntry) :
    Option PlanItem :=
  let existing := rightSizeOf rightFiles p.1
  match existing with
  | some sz =>
    if sz = p.2.sourceSize then none
    else some
      { sourceRelativePath := p.2.sourceRelativePath
        sourceSize := p.2.sourceSize
        targetRelativePath := p.1
        version := p.2.version
        destinationExists := true
        destinationSize := some sz }
  | none => some
      { sourceRelativePath := p.2.sourceRelativePath
        sourceSize := p.2.sourceSize
        targetRelativePath := p.1
        version := p.2.version
        destinationExists := false
        destinationSize := none }

/-- Lexicographic comparison of char lists by code point. -/
def charsLe : List Char → List Char → Bool
  | [], _ => true
  | _ :: _, [] => false
  | a :: as, b :: bs =>
    if a = b then charsLe as bs else decide (a < b)

/-- Sort key of a relative path: its segments joined by the separator.
`String.localeCompare` is modelled as code-point comparison of this key
(the engine's paths are plain ASCII names, where the two agree). -/
def pathChars (p : List String) : List Char :=
  (String.intercalate "/" p).toList

/-- The plan's comparator `a.targetRelativePath.localeCompare(b.targetRelativePath)`. -/
def planItemLe (a b : PlanItem) : Bool :=
  charsLe (pathChars a.targetRelativePath) (pathChars b.targetRelativePath)

/-- Insert one item into a plan segment sorted by `planItemLe`. -/
def insertPlanItem (x : PlanItem) : List PlanItem → List PlanItem
  | [] => [x]
  | y :: ys => if planItemLe x y then x :: y :: ys else y :: insertPlanItem x ys

/-- `plan.sort(comparator)` as insertion sort.  Within one plan, target
relative paths are pairwise distinct, so the comparator never ties and
any correct sort produces the same sequence. -/
def sortPlan (l : List PlanItem) : List PlanItem :=
  l.foldr insertPlanItem []

/-- Steps 2–5 of `buildComparePlan`: choose best candidates, filter by
destination size, sort by target relative path. -/
def comparePlanItems (leftFiles rightFiles : List ScanFile) : List PlanItem :=
  sortPlan ((bestByTarget leftFiles).filterMap (planItemFor rightFiles))

example :
    comparePlanItems
      [⟨["folder", "doc_v1.txt"], 3⟩, ⟨["folder", "doc_v3.txt"], 5⟩]
      [⟨["folder", "doc.txt"], 3⟩] =
    [{ sourceRelativePath := ["folder", "doc_v3.txt"], sourceSize := 5,
       targetRelativePath := ["folder", "doc.txt"], version := 3,
       destinationExists := true, destinationSize := some 3 }] := by decide

example :
    comparePlanItems [⟨["a_v2.txt"], 4⟩] [⟨["a.txt"], 4⟩] = [] := by decide

/-! ## Root preconditions of `buildComparePlan`

Before scanning, `buildComparePlan` runs `ensureDirectoryAvailable` on
each root: `fs.stat` (missing root → wrapped `FILESYSTEM_ERROR`), an
`isDirectory()` check (→ `INVALID_DIRECTORY`), and an `fs.access` read
check (→ `FILESYSTEM_ERROR`).  That is the complete precondition stage:
the code never compares the two roots with each other.  The directory
environment records, per absolute root path, whether it exists, is a
directory, and is readable; the `walkFiles` scans are supplied as data. -/

/-- What the OS reports about one root path. -/
structure RootStat where
  isDirectory : Bool
  readable : Bool
  deriving Repr, DecidableEq

/-- Error codes raised by the planner's precondition stage. -/
inductive PlanError where
  | filesystemError
  | invalidDirectory
  deriving Repr, DecidableEq

/-- `ensureDirectoryAvailable` from `sync.js`. -/
def ensureDirectoryAvailable (env : List (List String × RootStat))
    (root : List String) : Except PlanError Unit :=
  match (env.find? (fun p => p.1 = root)).map (·.2) with
  | none => .error .filesystemError
  | some st =>
    if !st.isDirectory then .error .invalidDirectory
    else if !st.readable then .error .filesystemError
    else .ok ()

/-- The plan bundle returned by `buildComparePlan` (directory-creation
validation of the destination is not involved in any claim and is
omitted). -/
structure PlanBundle where
  leftRoot : List String
  rightRoot : List String
  plan : List PlanItem
  totalCandidates : Nat
  pendingCount : Nat
  deriving Repr, DecidableEq

/-- `buildComparePlan`'s control flow around the pure core: check each
root with `ensureDirectoryAvailable`, scan, and build the plan.  The
scans of the two roots are passed in as the data `walkFiles` would
produce. -/
def buildComparePlan (env : List (List String × RootStat))
    (leftRoot rightRoot : List String)
    (leftFiles rightFiles : List ScanFile) : Except PlanError PlanBundle := do
  let _ ← ensureDirectoryAvailable env leftRoot
  let _ ← ensureDirectoryAvailable env rightRoot
  let plan := comparePlanItems leftFiles rightFiles
  pure
    { leftRoot := leftRoot
      rightRoot := rightRoot
      plan := plan
      totalCandidates := (bestByTarget leftFiles).length
      pendingCount := plan.length }

/-! ## The copy transaction (`processItemAttempt`)

The filesystem is an association list from paths to byte lists; only
regular files are modelled (the `DESTINATION_PATH_CONFLICT` branch for a
non-file destination is not involved in any claim).  The environment's
failures are injected by an `AttemptScript`:

* `sourceAccessFails` — `fs.access(sourcePath, R_OK)` rejects;
* `copyFailsAfter = some k` — the streaming copy raises (error, cancel
  or pause-abort) after `k` bytes have been written and counted;
* `backupUnlinkFails` — the post-copy `fs.unlink(backupPath)` rejects;
* `rollbackUnlinkFails` — the catch-block `fs.unlink(targetPath)`
  rejects (the code swallows this error, the file simply remains);
* `restoreRenameErr` — the catch-block `fs.rename(backupPath,
  targetPath)` rejects with the given OS code. -/

/-- OS error codes that matter to the rollback logic. -/
inductive FsErr where
  | enoent
  | eacces
  | ebusy
  deriving Repr, DecidableEq

/-- Bytes of a file. -/
abbrev Content := List Nat

/-- The filesystem: a finite map from paths to contents. -/
abbrev Fsys := List (List String × Content)

/-- Read a file. -/
def fsGet : Fsys → List String → Option Content
  | [], _ => none
  | q :: fs, p => if q.1 = p then some q.2 else fsGet fs p

/-- Create or overwrite a file. -/
def fsSet (fs : Fsys) (p : List String) (c : Content) : Fsys :=
  match fs with
  | [] => [(p, c)]
  | q :: rest => if q.1 = p then (p, c) :: rest else q :: fsSet rest p c

/-- `fs.unlink` (the caller handles a missing file). -/
def fsRemove (fs : Fsys) (p : List String) : Fsys :=
  List.filter (fun q => q.1 ≠ p) fs

/-- One plan item as the transaction sees it. -/
structure TxItem where
  sourcePath : List String
  targetPath : List String
  deriving Repr, DecidableEq

/-- A record of `journalState.activeEntries` (fields not bearing on the
claims are omitted; `backupPath` is `none` while the code stores `''`). -/
structure ActiveEntry where
  sourcePath : List String
  targetPath : List String
  backupPath : Option (List String)
  attempt : Nat
  deriving Repr, DecidableEq

/-- The active-entries map. -/
abbrev ActiveMap := List (List String × ActiveEntry)

def activeGet : ActiveMap → List String → Option ActiveEntry
  | [], _ => none
  | q :: m, p => if q.1 = p then some q.2 else activeGet m p

def activeSet (m : ActiveMap) (p : List String) (e : ActiveEntry) : ActiveMap :=
  match m with
  | [] => [(p, e)]
  | q :: rest => if q.1 = p then (p, e) :: rest else q :: activeSet rest p e

/-- `delete journalState.activeEntries[t]`. -/
def activeDel (m : ActiveMap) (p : List String) : ActiveMap :=
  List.filter (fun q => q.1 ≠ p) m

/-- Failure injection for one attempt. -/
structure AttemptScript where
  sourceAccessFails : Bool
  copyFailsAfter : Option Nat
  backupUnlinkFails : Bool
  rollbackUnlinkFails : Bool
  restoreRenameErr : Option FsErr
  deriving Repr, DecidableEq

/-- A script that lets the attempt commit. -/
def cleanScript : AttemptScript :=
  { sourceAccessFails := false
    copyFailsAfter := none
    backupUnlinkFails := false
    rollbackUnlinkFails := false
    restoreRenameErr := none }

/-- Error codes thrown by one attempt. -/
inductive TxErr where
  | sourceUnavailable
  | copyFailed
  | backupCleanupFailed
  | restoreFailed
  deriving Repr, DecidableEq

/-- Outcome of one attempt. -/
inductive TxOutcome where
  | committed
  | failed (code : TxErr)
  deriving Repr, DecidableEq

/-- State after one attempt, plus the bytes the chunk callback added to
`bytesTransferred` during it. -/
structure AttemptResult where
  fs : Fsys
  active : ActiveMap
  outcome : TxOutcome
  bytesAdded : Nat

/-- `makeTemporaryBackupPath`: `"." + basename + ".lempicka-tmp-" + unique`
next to the target.  The unique suffix is irrelevant within one attempt
and modelled as a constant. -/
def backupPathOf (target : List String) : List String :=
  target.dropLast ++ ["." ++ fileNameOf target ++ ".lempicka-tmp-0"]

/-- The `catch` block of `processItemAttempt`: unlink the target with
every error swallowed; if a backup was taken, rename it back — any
rename failure (its OS code notwithstanding) becomes `RESTORE_FAILED`,
thrown before the `delete journalState.activeEntries[t]` line, so the
active entry survives exactly in that case. -/
def rollbackStep (fs : Fsys) (active : ActiveMap) (item : TxItem)
    (backup : Option (List String)) (script : AttemptScript)
    (code : TxErr) (bytes : Nat) : AttemptResult :=
  let fs1 := if script.rollbackUnlinkFails then fs else fsRemove fs item.targetPath
  match backup with
  | none =>
    { fs := fs1, active := activeDel active item.targetPath
      outcome := .failed code, bytesAdded := bytes }
  | some b =>
    match script.restoreRenameErr with
    | some _ =>
      { fs := fs1, active := active
        outcome := .failed .restoreFailed, bytesAdded := bytes }
    | none =>
      match fsGet fs1 b with
      | some c =>
        { fs := fsSet (fsRemove fs1 b) item.targetPath c
          active := activeDel active item.targetPath
          outcome := .failed code, bytesAdded := bytes }
      | none =>
        -- rename of a missing backup: the real call rejects with ENOENT,
        -- which this code path also converts to RESTORE_FAILED
        { fs := fs1, active := active
          outcome := .failed .restoreFailed, bytesAdded := bytes }

/-- `processItemAttempt` from `sync.js` for one attempt number:
journal the active entry, check the source, back the destination up if
present, stream-copy, drop the backup, commit — with the catch-block
rollback on any injected failure. -/
def processItemAttempt (fs : Fsys) (active : ActiveMap) (item : TxItem)
    (attempt : Nat) (script : AttemptScript) : AttemptResult :=
  let active1 := activeSet active item.targetPath
    { sourcePath := item.sourcePath, targetPath := item.targetPath
      backupPath := none, attempt := attempt + 1 }
  if script.sourceAccessFails then
    rollbackStep fs active1 item none script .sourceUnavailable 0
  else
    let destinationStat := fsGet fs item.targetPath
    let backup : Option (List String) :=
      match destinationStat with
      | some _ => some (backupPathOf item.targetPath)
      | none => none
    let fs1 :=
      match destinationStat with
      | some c => fsSet (fsRemove fs item.targetPath) (backupPathOf item.targetPath) c
      | none => fs
    let active2 :=
      match backup with
      | some b => activeSet active1 item.targetPath
          { sourcePath := item.sourcePath, targetPath := item.targetPath
            backupPath := some b, attempt := attempt + 1 }
      | none => active1
    let sourceContent := (fsGet fs item.sourcePath).getD []
    match script.copyFailsAfter with
    | some k =>
      let written := sourceContent.take k
      let fs2 := fsSet fs1 item.targetPath written
      rollbackStep fs2 active2 item backup script .copyFailed written.length
    | none =>
      let fs2 := fsSet fs1 item.targetPath sourceContent
      match backup with
      | some b =>
        if script.backupUnlinkFails then
          rollbackStep fs2 active2 item backup script
            .backupCleanupFailed sourceContent.length
        else
          { fs := fsRemove fs2 b
            active := activeDel active2 item.targetPath
            outcome := .committed
            bytesAdded := sourceContent.length }
      | none =>
        { fs := fs2
          active := activeDel active2 item.targetPath
          outcome := .committed
          bytesAdded := sourceContent.length }

/-- One entry's processing inside `recoverActiveEntriesFromJournal`:
unlink the target (every error swallowed), then, when a backup path is
recorded, rename it back onto the target — here, and only here, `ENOENT`
from the rename is tolerated; any other code raises `RESTORE_FAILED`. -/
def recoverEntry (fs : Fsys) (entry : ActiveEntry)
    (unlinkFails : Bool) (renameErr : Option FsErr) : Except TxErr Fsys :=
  let fs1 := if unlinkFails then fs else fsRemove fs entry.targetPath
  match entry.backupPath with
  | none => .ok fs1
  | some b =>
    match renameErr with
    | some .enoent => .ok fs1
    | some _ => .error .restoreFailed
    | none =>
      match fsGet fs1 b with
      | some c => .ok (fsSet (fsRemove fs1 b) entry.targetPath c)
      | none => .ok fs1   -- missing backup: the real rename rejects ENOENT, tolerated

/-! ## The runner's byte accounting

`syncPlan` holds a single `bytesTransferred` counter; the only statement
touching it is `bytesTransferred += chunkBytes` inside the chunk
callback (`queueJournalWrite` copies it into the journal).  A run is a
sequence of attempts; `runBytes` accumulates each attempt's chunk
contribution. -/

/-- State threaded through a run. -/
structure RunState where
  fs : Fsys
  active : ActiveMap
  bytes : Nat
  committedSizes : List Nat

/-- Execute one scripted attempt and account its bytes. -/
def runStep (st : RunState) (step : TxItem × Nat × AttemptScript) : RunState :=
  let r := processItemAttempt st.fs st.active step.1 step.2.1 step.2.2
  { fs := r.fs
    active := r.active
    bytes := st.bytes + r.bytesAdded
    committedSizes :=
      match r.outcome with
      | .committed => st.committedSizes ++ [r.bytesAdded]
      | .failed _ => st.committedSizes }

/-- A whole scripted run. -/
def runAttempts (st : RunState) (steps : List (TxItem × Nat × AttemptScript)) :
    RunState :=
  steps.foldl runStep st

/-- `bytesTransferred` after the first `n` attempts of a run. -/
def bytesAfter (st : RunState) (steps : List (TxItem × Nat × AttemptScript))
    (n : Nat) : Nat :=
  (runAttempts st (steps.take n)).bytes

/-! ## Item ordering in a sequential run

With `continue_on_error = false`, `syncPlan`'s worker count is 1: it
filters the plan to pending items (targets not yet completed — the code
keys this set by absolute `targetPath`, which within one destination
root corresponds one-to-one to `targetRelativePath`), splits them at the
small-file threshold, and processes every small file before any large
file, each class in plan order. -/

/-- The sequence in which a sequential `syncPlan` run hands plan items
to `processItemWithRetryAndFailureHandling`. -/
def sequentialOrder (plan : List PlanItem) (completed : List (List String))
    (threshold : Nat) : List PlanItem :=
  let pending := plan.filter (fun it => !completed.contains it.targetRelativePath)
  pending.filter (fun it => decide (it.sourceSize ≤ threshold)) ++
    pending.filter (fun it => decide (threshold < it.sourceSize))

/-! ## Rescanning after a fully successful sync

A fully successful `syncPlan` leaves, for every plan item, a destination
file at `targetRelativePath` holding a byte-for-byte copy of the source
(hence of size `sourceSize`), and touches nothing else under the
destination root.  Scanning the destination again applies `walkFiles`'s
visibility filter: no hidden or well-known system names on the path, and
a usable extension on the file name. -/

/-- `walkFiles`'s acceptance test, applied to a scan record: every
segment survives the hidden/system filter and the file name has a
normal extension. -/
def scanVisible (f : ScanFile) : Bool :=
  f.relPath.all (fun seg => !isHiddenName seg && !isLikelySystemFile seg) &&
    hasNormalExtension (fileNameOf f.relPath)

/-- Targets written by a plan. -/
def planTargets (plan : List PlanItem) : List (List String) :=
  plan.map (·.targetRelativePath)

/-- The destination scan after a fully successful run of `plan`:
untouched prior files, plus one file of the source's size per plan item,
filtered by `walkFiles`'s visibility test. -/
def rescanAfterSync (rightFiles : List ScanFile) (plan : List PlanItem) :
    List ScanFile :=
  (rightFiles.filter
      (fun rf : ScanFile => !(planTargets plan).contains rf.relPath) ++
    plan.map (fun it => ScanFile.mk it.targetRelativePath it.sourceSize)).filter
    scanVisible

/-! # Lemmas -/

/-! ## Sorting -/

theorem mem_insertPlanItem {x a : PlanItem} {l : List PlanItem} :
    a ∈ insertPlanItem x l ↔ a = x ∨ a ∈ l := by
  induction l with
  | nil => simp [insertPlanItem]
  | cons y ys ih =>
    simp only [insertPlanItem]
    split
    · simp [or_comm, or_assoc, or_left_comm]
    · simp only [List.mem_cons, ih]
      tauto

theorem mem_sortPlan {a : PlanItem} {l : List PlanItem} :
    a ∈ sortPlan l ↔ a ∈ l := by
  induction l with
  | nil => simp [sortPlan]
  | cons y ys ih =>
    show a ∈ insertPlanItem y (sortPlan ys) ↔ _
    rw [mem_insertPlanItem, ih]
    simp

theorem insertPlanItem_ne_nil (x : PlanItem) (l : List PlanItem) :
    insertPlanItem x l ≠ [] := by
  cases l with
  | nil => simp [insertPlanItem]
  | cons y ys =>
    simp only [insertPlanItem]
    split <;> simp

theorem sortPlan_eq_nil {l : List PlanItem} : sortPlan l = [] ↔ l = [] := by
  cases l with
  | nil => simp [sortPlan]
  | cons y ys =>
    constructor
    · intro h
      exact absurd h (insertPlanItem_ne_nil y (sortPlan ys))
    · intro h
      exact absurd h (by simp)

theorem mem_comparePlanItems {lfs rfs : List ScanFile} {item : PlanItem} :
    item ∈ comparePlanItems lfs rfs ↔
      ∃ p ∈ bestByTarget lfs, planItemFor rfs p = some item := by
  rw [comparePlanItems, mem_sortPlan, List.mem_filterMap]

/-! ## The last-dot split -/

theorem splitLastDot_eq : ∀ {s pre suf : List Char},
    splitLastDot s = some (pre, suf) → s = pre ++ '.' :: suf := by
  intro s
  induction s with
  | nil => intro pre suf h; simp [splitLastDot] at h
  | cons c s ih =>
    intro pre suf h
    simp only [splitLastDot] at h
    cases h' : splitLastDot s with
    | some pq =>
      obtain ⟨p, q⟩ := pq
      rw [h'] at h
      simp only [Option.some.injEq, Prod.mk.injEq] at h
      obtain ⟨hpre, hsuf⟩ := h
      subst hpre; subst hsuf
      simpa using ih h'
    | none =>
      rw [h'] at h
      by_cases hc : c = '.'
      · subst hc
        rw [if_pos rfl] at h
        cases h
        simp
      · simp [hc] at h

theorem extname_of_split_none {s : List Char} (hsp : splitLastDot s = none) :
    extname s = [] := by
  unfold extname
  rw [hsp]

theorem extname_of_split_some {s pre suf : List Char}
    (hsp : splitLastDot s = some (pre, suf)) (h1 : pre ≠ [])
    (h2 : ¬(pre = ['.'] ∧ suf = [])) : extname s = '.' :: suf := by
  unfold extname
  rw [hsp]
  dsimp only
  rw [if_neg h1]
  by_cases hp : pre = ['.']
  · have hq : suf ≠ [] := fun hq => h2 ⟨hp, hq⟩
    simp [hp, hq]
  · simp [hp]

theorem stemOf_of_split {s pre suf : List Char}
    (hs : s = pre ++ '.' :: suf) (hext : extname s = '.' :: suf) :
    stemOf s = pre := by
  unfold stemOf
  rw [hext]
  have hlen : s.length = pre.length + (suf.length + 1) := by
    rw [hs]; simp
  have hn : s.length - ('.' :: suf).length = pre.length := by
    simp only [List.length_cons]; omega
  rw [hn, hs, List.take_left]

/-! ## C5: `parseVersionedName` against the spec grammar -/

theorem parseVersionedName_not_versioned (name : String)
    (h : (parseVersionedName name).isVersioned = false) :
    (parseVersionedName name).version = 0 ∧
      (parseVersionedName name).targetFileName = name := by
  unfold parseVersionedName at h ⊢
  cases hm : stemVersionMatch (stemOf name.toList) with
  | none => simp [hm]
  | some bd =>
    obtain ⟨b, d⟩ := bd
    rw [hm] at h
    simp at h

/-- C5, amended: on every filename with a normal extension — the class
`walkFiles` admits into a scan — `parseVersionedName` is versioned
exactly when the spec grammar `^(stem)_v(digits).(ext)$` matches, with
identical stem, version and rebuilt target name; and any name the
matcher rejects maps to itself with version 0. -/
theorem parseVersionedName_matches_grammar (name : String)
    (h : hasNormalExtension name = true) :
    ((parseVersionedName name).isVersioned = true ↔
      (specGrammarMatch name.toList).isSome = true) ∧
    (∀ b d e, specGrammarMatch name.toList = some (b, d, e) →
      parseVersionedName name =
        { targetFileName := ⟨b ++ '.' :: e⟩, version := digitsVal d,
          strippedStem := ⟨b⟩, isVersioned := true }) ∧
    ((parseVersionedName name).isVersioned = false →
      (parseVersionedName name).version = 0 ∧
        (parseVersionedName name).targetFileName = name) := by
  unfold hasNormalExtension at h
  cases hsp : splitLastDot name.toList with
  | none =>
    rw [extname_of_split_none hsp] at h
    simp at h
  | some pq =>
    obtain ⟨pre, suf⟩ := pq
    by_cases h1 : pre = []
    · have hnul : extname name.toList = [] := by
        unfold extname; rw [hsp]; dsimp only; rw [if_pos h1]
      rw [hnul] at h; simp at h
    · by_cases h2 : pre = ['.'] ∧ suf = []
      · have hnul : extname name.toList = [] := by
          unfold extname; rw [hsp]; dsimp only; rw [if_neg h1]
          simp [h2.1, h2.2]
        rw [hnul] at h; simp at h
      · have hext : extname name.toList = '.' :: suf :=
          extname_of_split_some hsp h1 h2
        have hsuf : suf ≠ [] := by
          intro he
          rw [hext, he] at h
          simp at h
        have hstem : stemOf name.toList = pre :=
          stemOf_of_split (splitLastDot_eq hsp) hext
        have hemp : suf.isEmpty = false := by
          cases suf with
          | nil => exact absurd rfl hsuf
          | cons a as => rfl
        have hspec : specGrammarMatch name.toList =
            (stemVersionMatch pre).map (fun p => (p.1, p.2, suf)) := by
          unfold specGrammarMatch
          rw [hsp]
          dsimp only
          rw [hemp]
          rfl
        cases hm : stemVersionMatch pre with
        | none =>
          have hp : (parseVersionedName name).isVersioned = false := by
            unfold parseVersionedName
            rw [hstem, hm]
          refine ⟨?_, ?_, fun hi => parseVersionedName_not_versioned name hi⟩
          · rw [hp, hspec, hm]
            simp
          · intro b d e hbe
            rw [hspec, hm] at hbe
            simp at hbe
        | some bd =>
          obtain ⟨b0, d0⟩ := bd
          have hp : parseVersionedName name =
              { targetFileName := ⟨b0 ++ extname name.toList⟩
                version := digitsVal d0
                strippedStem := ⟨b0⟩
                isVersioned := true } := by
            unfold parseVersionedName
            rw [hstem, hm]
          refine ⟨?_, ?_, fun hi => parseVersionedName_not_versioned name hi⟩
          · rw [hp, hspec, hm]
            simp
          · intro b d e hbe
            rw [hspec, hm] at hbe
            simp only [Option.map_some', Option.some.injEq, Prod.mk.injEq] at hbe
            obtain ⟨hb, hd, he⟩ := hbe
            subst hb; subst hd; subst he
            rw [hp, hext]

/-- C5 counterexample input: `"a_v1"` has no extension, so it fails the
spec's grammar, yet `parseVersionedName` reports it versioned. -/
theorem parseVersionedName_no_ext_counterexample :
    specGrammarMatch "a_v1".toList = none ∧
      (parseVersionedName "a_v1").isVersioned = true ∧
      (parseVersionedName "a_v1").version = 1 ∧
      (parseVersionedName "a_v1").targetFileName = "a" := by
  refine ⟨by decide, by decide, by decide, by decide⟩

/-- Witness for C5's amended theorem at `"notes_v12.txt"`. -/
theorem parseVersionedName_matches_grammar_witness :
    hasNormalExtension "notes_v12.txt" = true ∧
      ((parseVersionedName "notes_v12.txt").isVersioned = true ↔
        (specGrammarMatch "notes_v12.txt".toList).isSome = true) :=
  ⟨by decide, (parseVersionedName_matches_grammar "notes_v12.txt" (by decide)).1⟩

/-! ## Association-list lemmas for the best-candidate map -/

/-- Keys of the map are pairwise distinct. -/
def KeysDistinct (m : List (List String × BestEntry)) : Prop :=
  List.Pairwise (· ≠ ·) (m.map Prod.fst)

theorem findEntry_eq_none_iff {m : List (List String × BestEntry)}
    {t : List String} : findEntry m t = none ↔ ∀ p ∈ m, p.1 ≠ t := by
  induction m with
  | nil =>
    constructor
    · intro _ p hp
      exact absurd hp (List.not_mem_nil p)
    · intro _
      rfl
  | cons p m ih =>
    simp only [findEntry]
    constructor
    · intro h q hq
      split at h
      · exact absurd h (Option.some_ne_none _)
      · rename_i hp
        rcases List.mem_cons.mp hq with heq | hmem
        · rw [heq]; exact hp
        · exact (ih.mp h) q hmem
    · intro h
      rw [if_neg (h p (List.mem_cons_self p m))]
      exact ih.mpr (fun q hq => h q (List.mem_cons_of_mem p hq))

theorem findEntry_mem {m : List (List String × BestEntry)} {t : List String}
    {e : BestEntry} (h : findEntry m t = some e) : (t, e) ∈ m := by
  induction m with
  | nil => exact absurd h (by simp only [findEntry]; exact Option.noConfusion)
  | cons p m ih =>
    simp only [findEntry] at h
    split at h
    · rename_i hp
      injection h with h2
      have hpe : p = (t, e) := by
        obtain ⟨p1, p2⟩ := p
        simp only at hp h2
        rw [hp, h2]
      rw [← hpe]
      exact List.mem_cons_self p m
    · exact List.mem_cons_of_mem _ (ih h)

theorem findEntry_of_mem {m : List (List String × BestEntry)} {t : List String}
    {e : BestEntry} (hd : KeysDistinct m) (h : (t, e) ∈ m) :
    findEntry m t = some e := by
  induction m with
  | nil => exact absurd h (List.not_mem_nil _)
  | cons p m ih =>
    unfold KeysDistinct at hd
    simp only [List.map_cons, List.pairwise_cons] at hd
    rcases List.mem_cons.mp h with heq | hmem
    · rw [← heq]
      show (if t = t then some e else findEntry m t) = some e
      rw [if_pos rfl]
    · have hne : p.1 ≠ t := by
        intro hpt
        exact hd.1 t (List.mem_map.mpr ⟨(t, e), hmem, rfl⟩) hpt
      simp only [findEntry, if_neg hne]
      exact ih hd.2 hmem

theorem findEntry_append_some {m₁ m₂ : List (List String × BestEntry)}
    {t : List String} {e : BestEntry} (h : findEntry m₁ t = some e) :
    findEntry (m₁ ++ m₂) t = some e := by
  induction m₁ with
  | nil => exact absurd h (by simp only [findEntry]; exact Option.noConfusion)
  | cons p m ih =>
    simp only [findEntry, List.cons_append] at h ⊢
    split at h
    · rename_i hp
      rw [if_pos hp]
      exact h
    · rename_i hp
      rw [if_neg hp]
      exact ih h

theorem findEntry_append_none {m₁ m₂ : List (List String × BestEntry)}
    {t : List String} (h : findEntry m₁ t = none) :
    findEntry (m₁ ++ m₂) t = findEntry m₂ t := by
  induction m₁ with
  | nil => rfl
  | cons p m ih =>
    simp only [findEntry, List.cons_append] at h ⊢
    split at h
    · exact absurd h (Option.some_ne_none _)
    · rename_i hp
      rw [if_neg hp]
      exact ih h

theorem keys_replaceEntry (m : List (List String × BestEntry))
    (t : List String) (e : BestEntry) :
    (replaceEntry m t e).map Prod.fst = m.map Prod.fst := by
  induction m with
  | nil => rfl
  | cons p m ih =>
    show ((if p.1 = t then (t, e) else p) :: replaceEntry m t e).map Prod.fst = _
    by_cases hp : p.1 = t
    · rw [if_pos hp]
      simp only [List.map_cons]
      rw [ih, hp]
    · rw [if_neg hp]
      simp only [List.map_cons]
      rw [ih]

theorem findEntry_replaceEntry_self {m : List (List String × BestEntry)}
    {t : List String} {e prev : BestEntry} (h : findEntry m t = some prev) :
    findEntry (replaceEntry m t e) t = some e := by
  induction m with
  | nil => exact absurd h (by simp only [findEntry]; exact Option.noConfusion)
  | cons p m ih =>
    simp only [findEntry] at h
    show findEntry ((if p.1 = t then (t, e) else p) :: replaceEntry m t e) t = _
    split at h
    · rename_i hp
      rw [if_pos hp]
      show (if t = t then some e else findEntry (replaceEntry m t e) t) = some e
      rw [if_pos rfl]
    · rename_i hp
      rw [if_neg hp]
      simp only [findEntry, if_neg hp]
      exact ih h

theorem findEntry_replaceEntry_ne {m : List (List String × BestEntry)}
    {t t' : List String} {e : BestEntry} (h : t' ≠ t) :
    findEntry (replaceEntry m t e) t' = findEntry m t' := by
  induction m with
  | nil => rfl
  | cons p m ih =>
    show findEntry ((if p.1 = t then (t, e) else p) :: replaceEntry m t e) t' = _
    by_cases hp : p.1 = t
    · rw [if_pos hp]
      have ht : ¬(t = t') := fun hh => h hh.symm
      simp only [findEntry, if_neg ht]
      rw [if_neg (hp ▸ ht)]
      exact ih
    · rw [if_neg hp]
      simp only [findEntry]
      by_cases hp' : p.1 = t'
      · rw [if_pos hp', if_pos hp']
      · rw [if_neg hp', if_neg hp']
        exact ih

/-! ## The best-candidate fold invariant

`bestByTarget` folds `bestStep` over the left scan.  The invariant below
captures everything the claims need: keys are distinct, every stored
entry equals its key's `targetRelativePath`, every stored entry comes
from the earliest scanned file attaining the maximal version for its
target, and every processed file's target has an entry. -/

structure BestInv (processed : List ScanFile)
    (m : List (List String × BestEntry)) : Prop where
  distinct : KeysDistinct m
  keyed : ∀ p ∈ m, p.2.targetRelativePath = p.1
  sound : ∀ t e, findEntry m t = some e →
    ∃ pre lf post, processed = pre ++ lf :: post ∧
      targetRelOf lf.relPath = t ∧ mkBestEntry lf = e ∧
      (∀ lf' ∈ pre, targetRelOf lf'.relPath = t →
        versionOf lf'.relPath < e.version) ∧
      (∀ lf' ∈ post, targetRelOf lf'.relPath = t →
        versionOf lf'.relPath ≤ e.version)
  complete : ∀ lf ∈ processed,
    (findEntry m (targetRelOf lf.relPath)).isSome = true

theorem mkBestEntry_version (lf : ScanFile) :
    (mkBestEntry lf).version = versionOf lf.relPath := rfl

theorem bestInv_step {processed : List ScanFile}
    {m : List (List String × BestEntry)} (lf : ScanFile)
    (h : BestInv processed m) : BestInv (processed ++ [lf]) (bestStep m lf) := by
  cases hf : findEntry m (targetRelOf lf.relPath) with
  | none =>
    have hstep : bestStep m lf =
        m ++ [(targetRelOf lf.relPath, mkBestEntry lf)] := by
      simp only [bestStep]
      rw [hf]
    rw [hstep]
    refine ⟨?_, ?_, ?_, ?_⟩
    · unfold KeysDistinct
      rw [List.map_append, List.pairwise_append]
      refine ⟨h.distinct, List.pairwise_singleton _ _, ?_⟩
      intro a ha b hb
      simp only [List.map_cons, List.map_nil, List.mem_singleton] at hb
      subst hb
      obtain ⟨p, hp, hpa⟩ := List.mem_map.mp ha
      rw [← hpa]
      exact (findEntry_eq_none_iff.mp hf) p hp
    · intro p hp
      rcases List.mem_append.mp hp with h1 | h2
      · exact h.keyed p h1
      · simp only [List.mem_singleton] at h2
        subst h2
        rfl
    · intro t e hfe
      cases hm1 : findEntry m t with
      | some e0 =>
        rw [findEntry_append_some hm1] at hfe
        injection hfe with he
        subst he
        obtain ⟨pre, lf0, post, hsplit, htg, hmk, hpre, hpost⟩ :=
          h.sound t e0 hm1
        refine ⟨pre, lf0, post ++ [lf], by rw [hsplit]; simp, htg, hmk, hpre, ?_⟩
        intro lf' hlf' htg'
        rcases List.mem_append.mp hlf' with hh | hh
        · exact hpost lf' hh htg'
        · simp only [List.mem_singleton] at hh
          subst hh
          rw [htg'] at hf
          rw [hf] at hm1
          exact absurd hm1 (fun hx => Option.noConfusion hx)
      | none =>
        rw [findEntry_append_none hm1] at hfe
        by_cases ht : targetRelOf lf.relPath = t
        · have he : e = mkBestEntry lf := by
            simp only [findEntry, if_pos ht] at hfe
            injection hfe with hh
            exact hh.symm
          refine ⟨processed, lf, [], by simp, ht, he.symm, ?_, ?_⟩
          · intro lf' hl' htg'
            have hc := h.complete lf' hl'
            rw [htg'] at hc
            rw [hm1] at hc
            simp at hc
          · intro lf' hl'
            exact absurd hl' (List.not_mem_nil _)
        · simp only [findEntry, if_neg ht] at hfe
          exact absurd hfe (fun hx => Option.noConfusion hx)
    · intro lf' hl'
      rcases List.mem_append.mp hl' with hh | hh
      · have hs := h.complete lf' hh
        cases hm1 : findEntry m (targetRelOf lf'.relPath) with
        | some e0 =>
          rw [findEntry_append_some hm1]
          rfl
        | none =>
          rw [hm1] at hs
          simp at hs
      · simp only [List.mem_singleton] at hh
        subst hh
        rw [findEntry_append_none hf]
        simp only [findEntry, if_pos rfl]
        rfl
  | some prev =>
    by_cases hv :
        prev.version < (parseVersionedName (fileNameOf lf.relPath)).version
    · have hstep : bestStep m lf =
          replaceEntry m (targetRelOf lf.relPath) (mkBestEntry lf) := by
        simp only [bestStep]
        rw [hf]
        dsimp only
        rw [if_pos hv]
      rw [hstep]
      refine ⟨?_, ?_, ?_, ?_⟩
      · unfold KeysDistinct
        rw [keys_replaceEntry]
        exact h.distinct
      · intro p hp
        obtain ⟨q, hq, hqp⟩ := List.mem_map.mp hp
        by_cases hq1 : q.1 = targetRelOf lf.relPath
        · rw [← hqp, if_pos hq1]
          rfl
        · rw [← hqp, if_neg hq1]
          exact h.keyed q hq
      · intro t e hfe
        by_cases ht : t = targetRelOf lf.relPath
        · subst ht
          rw [findEntry_replaceEntry_self hf] at hfe
          injection hfe with he
          obtain ⟨pre0, lf0, post0, hsplit0, htg0, hmk0, hpre0, hpost0⟩ :=
            h.sound _ prev hf
          refine ⟨processed, lf, [], by simp, rfl, he, ?_, ?_⟩
          · intro lf' hl' htg'
            have hle : versionOf lf'.relPath ≤ prev.version := by
              rw [hsplit0] at hl'
              rcases List.mem_append.mp hl' with hh | hh
              · exact le_of_lt (hpre0 lf' hh htg')
              · rcases List.mem_cons.mp hh with hh0 | hh1
                · subst hh0
                  rw [← hmk0, mkBestEntry_version]
                · exact hpost0 lf' hh1 htg'
            rw [← he, mkBestEntry_version]
            exact lt_of_le_of_lt hle hv
          · intro lf' hl'
            exact absurd hl' (List.not_mem_nil _)
        · rw [findEntry_replaceEntry_ne ht] at hfe
          obtain ⟨pre, lf0, post, hsplit, htg, hmk, hpre, hpost⟩ :=
            h.sound t e hfe
          refine ⟨pre, lf0, post ++ [lf], by rw [hsplit]; simp, htg, hmk, hpre, ?_⟩
          intro lf' hl' htg'
          rcases List.mem_append.mp hl' with hh | hh
          · exact hpost lf' hh htg'
          · simp only [List.mem_singleton] at hh
            subst hh
            exact absurd htg'.symm ht
      · intro lf' hl'
        rcases List.mem_append.mp hl' with hh | hh
        · have hs := h.complete lf' hh
          by_cases ht : targetRelOf lf'.relPath = targetRelOf lf.relPath
          · rw [ht, findEntry_replaceEntry_self hf]
            rfl
          · rw [findEntry_replaceEntry_ne ht]
            exact hs
        · simp only [List.mem_singleton] at hh
          subst hh
          rw [findEntry_replaceEntry_self hf]
          rfl
    · have hstep : bestStep m lf = m := by
        simp only [bestStep]
        rw [hf]
        dsimp only
        rw [if_neg hv]
      rw [hstep]
      refine ⟨h.distinct, h.keyed, ?_, ?_⟩
      · intro t e hfe
        obtain ⟨pre, lf0, post, hsplit, htg, hmk, hpre, hpost⟩ :=
          h.sound t e hfe
        refine ⟨pre, lf0, post ++ [lf], by rw [hsplit]; simp, htg, hmk, hpre, ?_⟩
        intro lf' hl' htg'
        rcases List.mem_append.mp hl' with hh | hh
        · exact hpost lf' hh htg'
        · simp only [List.mem_singleton] at hh
          subst hh
          have hpe : prev = e := by
            rw [← htg'] at hfe
            rw [hf] at hfe
            injection hfe
          rw [← hpe]
          exact Nat.not_lt.mp hv
      · intro lf' hl'
        rcases List.mem_append.mp hl' with hh | hh
        · exact h.complete lf' hh
        · simp only [List.mem_singleton] at hh
          subst hh
          rw [hf]
          rfl

theorem bestInv_fold (lfs : List ScanFile) :
    ∀ (processed : List ScanFile) (m : List (List String × BestEntry)),
      BestInv processed m →
      BestInv (processed ++ lfs) (lfs.foldl bestStep m) := by
  induction lfs with
  | nil =>
    intro processed m h
    simpa using h
  | cons a lfs ih =>
    intro processed m h
    have h2 := ih (processed ++ [a]) (bestStep m a) (bestInv_step a h)
    simpa [List.append_assoc] using h2

theorem bestInv_bestByTarget (lfs : List ScanFile) :
    BestInv lfs (bestByTarget lfs) := by
  have h0 : BestInv [] ([] : List (List String × BestEntry)) := by
    refine ⟨List.Pairwise.nil, ?_, ?_, ?_⟩
    · intro p hp
      exact absurd hp (List.not_mem_nil _)
    · intro t e hfe
      exact absurd hfe (fun hx => Option.noConfusion hx)
    · intro lf hl
      exact absurd hl (List.not_mem_nil _)
  have := bestInv_fold lfs [] [] h0
  simpa using this

/-! ## Plan-item emission lemmas -/

theorem planItemFor_fields {rfs : List ScanFile} {p : List String × BestEntry}
    {item : PlanItem} (h : planItemFor rfs p = some item) :
    item.sourceRelativePath = p.2.sourceRelativePath ∧
      item.sourceSize = p.2.sourceSize ∧
      item.targetRelativePath = p.1 ∧
      item.version = p.2.version := by
  simp only [planItemFor] at h
  cases hr : rightSizeOf rfs p.1 with
  | some sz =>
    rw [hr] at h
    dsimp only at h
    split at h
    · exact absurd h (fun hx => Option.noConfusion hx)
    · injection h with hh
      rw [← hh]
      exact ⟨rfl, rfl, rfl, rfl⟩
  | none =>
    rw [hr] at h
    dsimp only at h
    injection h with hh
    rw [← hh]
    exact ⟨rfl, rfl, rfl, rfl⟩

theorem planItemFor_eq_none_iff {rfs : List ScanFile} {t : List String}
    {e : BestEntry} :
    planItemFor rfs (t, e) = none ↔ rightSizeOf rfs t = some e.sourceSize := by
  simp only [planItemFor]
  cases hr : rightSizeOf rfs t with
  | some sz =>
    dsimp only
    by_cases hs : sz = e.sourceSize
    · simp [hs]
    · simp [hs]
  | none => simp

/-! ## C3: highest version wins -/

/-- C3: every plan item's source is a left-scan candidate for the item's
target whose parsed version is maximal among all candidates for that
target. -/
theorem comparePlanItems_highest_version (lfs rfs : List ScanFile)
    (item : PlanItem) (h : item ∈ comparePlanItems lfs rfs) :
    ∃ lf ∈ lfs, targetRelOf lf.relPath = item.targetRelativePath ∧
      lf.relPath = item.sourceRelativePath ∧
      lf.size = item.sourceSize ∧
      versionOf lf.relPath = item.version ∧
      ∀ lf' ∈ lfs, targetRelOf lf'.relPath = item.targetRelativePath →
        versionOf lf'.relPath ≤ item.version := by
  obtain ⟨p, hp, hpf⟩ := mem_comparePlanItems.mp h
  obtain ⟨t, e⟩ := p
  have inv := bestInv_bestByTarget lfs
  have hfe : findEntry (bestByTarget lfs) t = some e :=
    findEntry_of_mem inv.distinct hp
  obtain ⟨pre, lf, post, hsplit, htg, hmk, hpre, hpost⟩ := inv.sound t e hfe
  obtain ⟨hsr, hss, htr, hv⟩ := planItemFor_fields hpf
  refine ⟨lf, ?_, ?_, ?_, ?_, ?_, ?_⟩
  · rw [hsplit]
    exact List.mem_append.mpr (Or.inr (List.mem_cons_self lf post))
  · rw [htr]
    exact htg
  · rw [hsr, ← hmk]
    rfl
  · rw [hss, ← hmk]
    rfl
  · rw [hv, ← hmk, mkBestEntry_version]
  · intro lf' hl' htg'
    rw [htr] at htg'
    rw [hv]
    rw [hsplit] at hl'
    rcases List.mem_append.mp hl' with hh | hh
    · exact le_of_lt (hpre lf' hh htg')
    · rcases List.mem_cons.mp hh with hh0 | hh1
      · subst hh0
        rw [← hmk, mkBestEntry_version]
      · exact hpost lf' hh1 htg'

/-- Witness for C3 on a one-candidate scan. -/
theorem comparePlanItems_highest_version_witness :
    (({ sourceRelativePath := ["doc_v3.txt"], sourceSize := 5,
        targetRelativePath := ["doc.txt"], version := 3,
        destinationExists := false, destinationSize := none } : PlanItem) ∈
      comparePlanItems [⟨["doc_v3.txt"], 5⟩] []) ∧
    (∃ lf ∈ ([⟨["doc_v3.txt"], 5⟩] : List ScanFile),
      targetRelOf lf.relPath = ["doc.txt"] ∧
      lf.relPath = ["doc_v3.txt"] ∧
      lf.size = 5 ∧
      versionOf lf.relPath = 3 ∧
      ∀ lf' ∈ ([⟨["doc_v3.txt"], 5⟩] : List ScanFile),
        targetRelOf lf'.relPath = ["doc.txt"] → versionOf lf'.relPath ≤ 3) :=
  ⟨by decide,
    comparePlanItems_highest_version [⟨["doc_v3.txt"], 5⟩] []
      { sourceRelativePath := ["doc_v3.txt"], sourceSize := 5,
        targetRelativePath := ["doc.txt"], version := 3,
        destinationExists := false, destinationSize := none } (by decide)⟩

/-! ## C9: ties keep the earlier candidate -/

/-- C9: the stored candidate for a target is the scan-order-earliest
file attaining the maximal version — everything before it is strictly
smaller, everything after it never strictly exceeds it, so an
equal-version later candidate never replaces it. -/
theorem bestByTarget_earliest_tie (lfs : List ScanFile) (t : List String)
    (e : BestEntry) (h : findEntry (bestByTarget lfs) t = some e) :
    ∃ pre lf post, lfs = pre ++ lf :: post ∧
      targetRelOf lf.relPath = t ∧ mkBestEntry lf = e ∧
      (∀ lf' ∈ pre, targetRelOf lf'.relPath = t →
        versionOf lf'.relPath < versionOf lf.relPath) ∧
      (∀ lf' ∈ post, targetRelOf lf'.relPath = t →
        versionOf lf'.relPath ≤ versionOf lf.relPath) := by
  obtain ⟨pre, lf, post, hsplit, htg, hmk, hpre, hpost⟩ :=
    (bestInv_bestByTarget lfs).sound t e h
  have hev : e.version = versionOf lf.relPath := by
    rw [← hmk, mkBestEntry_version]
  exact ⟨pre, lf, post, hsplit, htg, hmk,
    fun lf' h1 h2 => hev ▸ hpre lf' h1 h2,
    fun lf' h1 h2 => hev ▸ hpost lf' h1 h2⟩

/-- Witness for C9 on a same-version tie (`x_v2.txt` before `x_V2.txt`,
both mapping to `x.txt` with version 2): the first one is kept. -/
theorem bestByTarget_earliest_tie_witness :
    (findEntry (bestByTarget [⟨["x_v2.txt"], 1⟩, ⟨["x_V2.txt"], 9⟩])
        ["x.txt"] = some (mkBestEntry ⟨["x_v2.txt"], 1⟩)) ∧
    (∃ pre lf post,
      ([⟨["x_v2.txt"], 1⟩, ⟨["x_V2.txt"], 9⟩] : List ScanFile) =
        pre ++ lf :: post ∧
      targetRelOf lf.relPath = ["x.txt"] ∧
      mkBestEntry lf = mkBestEntry ⟨["x_v2.txt"], 1⟩ ∧
      (∀ lf' ∈ pre, targetRelOf lf'.relPath = ["x.txt"] →
        versionOf lf'.relPath < versionOf lf.relPath) ∧
      (∀ lf' ∈ post, targetRelOf lf'.relPath = ["x.txt"] →
        versionOf lf'.relPath ≤ versionOf lf.relPath)) :=
  ⟨by decide,
    bestByTarget_earliest_tie [⟨["x_v2.txt"], 1⟩, ⟨["x_V2.txt"], 9⟩]
      ["x.txt"] (mkBestEntry ⟨["x_v2.txt"], 1⟩) (by decide)⟩

/-! ## C4: size-only equality decides plan membership -/

/-- C4: a chosen target has a plan item exactly when the destination
scan misses it or records a different size than the chosen source. -/
theorem comparePlanItems_size_filter (lfs rfs : List ScanFile)
    (t : List String) (e : BestEntry)
    (h : findEntry (bestByTarget lfs) t = some e) :
    (∃ item ∈ comparePlanItems lfs rfs, item.targetRelativePath = t) ↔
      (rightSizeOf rfs t = none ∨
        ∃ sz, rightSizeOf rfs t = some sz ∧ sz ≠ e.sourceSize) := by
  constructor
  · intro hex
    obtain ⟨item, hmem, htr⟩ := hex
    obtain ⟨p, hp, hpf⟩ := mem_comparePlanItems.mp hmem
    obtain ⟨t', e'⟩ := p
    have ht' : t' = t := by
      have hh := (planItemFor_fields hpf).2.2.1
      rw [htr] at hh
      exact hh.symm
    rw [ht'] at hp hpf
    have he' : e' = e := by
      have h2 := findEntry_of_mem (bestInv_bestByTarget lfs).distinct hp
      rw [h] at h2
      injection h2 with h2
      exact h2.symm
    rw [he'] at hpf
    have hne : rightSizeOf rfs t ≠ some e.sourceSize := by
      intro hcontra
      rw [planItemFor_eq_none_iff.mpr hcontra] at hpf
      exact Option.noConfusion hpf
    cases hr : rightSizeOf rfs t with
    | none => exact Or.inl rfl
    | some sz =>
      refine Or.inr ⟨sz, rfl, ?_⟩
      intro hsz
      exact hne (by rw [hr, hsz])
  · intro hcond
    have hne : rightSizeOf rfs t ≠ some e.sourceSize := by
      rcases hcond with h1 | ⟨sz, h2, h3⟩
      · rw [h1]
        exact fun hx => Option.noConfusion hx
      · rw [h2]
        intro hx
        injection hx with hx
        exact h3 hx
    cases hpf : planItemFor rfs (t, e) with
    | none => exact absurd (planItemFor_eq_none_iff.mp hpf) hne
    | some item =>
      refine ⟨item, mem_comparePlanItems.mpr ⟨(t, e), findEntry_mem h, hpf⟩, ?_⟩
      exact (planItemFor_fields hpf).2.2.1

/-- Witness for C4: destination present with a different size. -/
theorem comparePlanItems_size_filter_witness :
    (findEntry (bestByTarget [⟨["a_v2.txt"], 4⟩]) ["a.txt"] =
      some (mkBestEntry ⟨["a_v2.txt"], 4⟩)) ∧
    ((∃ item ∈ comparePlanItems [⟨["a_v2.txt"], 4⟩] [⟨["a.txt"], 7⟩],
        item.targetRelativePath = ["a.txt"]) ↔
      (rightSizeOf [⟨["a.txt"], 7⟩] ["a.txt"] = none ∨
        ∃ sz, rightSizeOf [⟨["a.txt"], 7⟩] ["a.txt"] = some sz ∧
          sz ≠ (mkBestEntry ⟨["a_v2.txt"], 4⟩).sourceSize)) :=
  ⟨by decide,
    comparePlanItems_size_filter [⟨["a_v2.txt"], 4⟩] [⟨["a.txt"], 7⟩]
      ["a.txt"] (mkBestEntry ⟨["a_v2.txt"], 4⟩) (by decide)⟩

/-! ## Right-map lookup lemmas -/

theorem rightSizeOf_go (t : List String) (Y : List ScanFile) :
    ∀ acc : Option Nat,
      Y.foldl (fun a rf => if rf.relPath = t then some rf.size else a) acc =
        (rightSizeOf Y t).elim acc some := by
  induction Y with
  | nil => intro acc; rfl
  | cons y Y ih =>
    intro acc
    have hcons : rightSizeOf (y :: Y) t =
        (rightSizeOf Y t).elim (if y.relPath = t then some y.size else none) some := by
      unfold rightSizeOf
      rw [List.foldl_cons]
      exact ih _
    rw [List.foldl_cons, ih, hcons]
    cases hr : rightSizeOf Y t with
    | some s => rfl
    | none =>
      by_cases hy : y.relPath = t
      · rw [if_pos hy, if_pos hy]
        rfl
      · rw [if_neg hy, if_neg hy]
        rfl

theorem rightSizeOf_cons (y : ScanFile) (Y : List ScanFile) (t : List String) :
    rightSizeOf (y :: Y) t =
      (rightSizeOf Y t).elim (if y.relPath = t then some y.size else none) some := by
  show List.foldl _ none (y :: Y) = _
  rw [List.foldl_cons]
  exact rightSizeOf_go t Y _

theorem rightSizeOf_append (X Y : List ScanFile) (t : List String) :
    rightSizeOf (X ++ Y) t = (rightSizeOf Y t).elim (rightSizeOf X t) some := by
  show List.foldl _ none (X ++ Y) = _
  rw [List.foldl_append]
  exact rightSizeOf_go t Y _

theorem rightSizeOf_some_mem {Y : List ScanFile} {t : List String} {s : Nat}
    (h : rightSizeOf Y t = some s) :
    ∃ rf ∈ Y, rf.relPath = t ∧ rf.size = s := by
  induction Y with
  | nil => exact absurd h (fun hx => Option.noConfusion hx)
  | cons y Y ih =>
    rw [rightSizeOf_cons] at h
    cases hr : rightSizeOf Y t with
    | some s0 =>
      rw [hr] at h
      injection h with hh
      obtain ⟨rf, hm, h1, h2⟩ := ih (by rw [hr, hh])
      exact ⟨rf, List.mem_cons_of_mem y hm, h1, h2⟩
    | none =>
      rw [hr] at h
      by_cases hy : y.relPath = t
      · rw [if_pos hy] at h
        injection h with hh
        exact ⟨y, List.mem_cons_self y Y, hy, hh⟩
      · rw [if_neg hy] at h
        exact absurd h (fun hx => Option.noConfusion hx)

theorem rightSizeOf_isSome_of_mem {Y : List ScanFile} {rf : ScanFile}
    {t : List String} (hm : rf ∈ Y) (ht : rf.relPath = t) :
    (rightSizeOf Y t).isSome = true := by
  induction Y with
  | nil => exact absurd hm (List.not_mem_nil _)
  | cons y Y ih =>
    rw [rightSizeOf_cons]
    cases hr : rightSizeOf Y t with
    | some s => rfl
    | none =>
      rcases List.mem_cons.mp hm with heq | hmem
      · subst heq
        rw [if_pos ht]
        rfl
      · have := ih hmem
        rw [hr] at this
        simp at this

theorem rightSizeOf_filter {Y : List ScanFile} {t : List String}
    {p : ScanFile → Bool} (h : ∀ rf ∈ Y, rf.relPath = t → p rf = true) :
    rightSizeOf (Y.filter p) t = rightSizeOf Y t := by
  induction Y with
  | nil => rfl
  | cons y Y ih =>
    have ih' := ih (fun rf hm => h rf (List.mem_cons_of_mem y hm))
    by_cases hp : p y = true
    · rw [List.filter_cons_of_pos hp, rightSizeOf_cons, rightSizeOf_cons, ih']
    · have hy : y.relPath ≠ t := by
        intro ht
        exact hp (h y (List.mem_cons_self y Y) ht)
      rw [List.filter_cons_of_neg hp, ih', rightSizeOf_cons, if_neg hy]
      cases rightSizeOf Y t <;> rfl

/-! ## C7: a fully successful sync leaves nothing to do -/

/-- Any plan item for target `t` is the one emitted from `t`'s stored
best entry (targets are map keys, hence unique within a plan). -/
theorem plan_item_unique (lfs rfs : List ScanFile) {t : List String}
    {e : BestEntry} (hfe : findEntry (bestByTarget lfs) t = some e)
    {it : PlanItem} (hit : it ∈ comparePlanItems lfs rfs)
    (htr : it.targetRelativePath = t) :
    planItemFor rfs (t, e) = some it := by
  obtain ⟨p2, hp2, hpf2⟩ := mem_comparePlanItems.mp hit
  obtain ⟨t2, e2⟩ := p2
  have ht2 : t2 = t := by
    have hh := (planItemFor_fields hpf2).2.2.1
    rw [htr] at hh
    exact hh.symm
  rw [ht2] at hp2 hpf2
  have he2 : e2 = e := by
    have h2 := findEntry_of_mem (bestInv_bestByTarget lfs).distinct hp2
    rw [hfe] at h2
    injection h2 with h2
    exact h2.symm
  rw [he2] at hpf2
  exact hpf2

/-- C7, amended: when every prior destination file and every plan
item's target file name pass `walkFiles`'s visibility filter, rescanning
the destination after a fully successful sync yields an empty plan. -/
theorem comparePlanItems_idempotent (lfs rfs : List ScanFile)
    (hR : ∀ rf ∈ rfs, scanVisible rf = true)
    (hT : ∀ it ∈ comparePlanItems lfs rfs,
      scanVisible (ScanFile.mk it.targetRelativePath it.sourceSize) = true) :
    comparePlanItems lfs (rescanAfterSync rfs (comparePlanItems lfs rfs)) = [] := by
  have hres : rescanAfterSync rfs (comparePlanItems lfs rfs) =
      rfs.filter
        (fun rf : ScanFile =>
          !(planTargets (comparePlanItems lfs rfs)).contains rf.relPath) ++
      (comparePlanItems lfs rfs).map
        (fun it => ScanFile.mk it.targetRelativePath it.sourceSize) := by
    unfold rescanAfterSync
    rw [List.filter_append]
    congr 1
    · apply List.filter_eq_self.mpr
      intro a ha
      exact hR a (List.mem_of_mem_filter ha)
    · apply List.filter_eq_self.mpr
      intro a ha
      obtain ⟨it, hit, hae⟩ := List.mem_map.mp ha
      rw [← hae]
      exact hT it hit
  show sortPlan ((bestByTarget lfs).filterMap
    (planItemFor (rescanAfterSync rfs (comparePlanItems lfs rfs)))) = []
  rw [sortPlan_eq_nil]
  rw [List.filterMap_eq_nil_iff]
  intro p hp
  obtain ⟨t, e⟩ := p
  have hfe : findEntry (bestByTarget lfs) t = some e :=
    findEntry_of_mem (bestInv_bestByTarget lfs).distinct hp
  rw [planItemFor_eq_none_iff, hres, rightSizeOf_append]
  cases hitem : planItemFor rfs (t, e) with
  | some item =>
    have hmem_plan : item ∈ comparePlanItems lfs rfs :=
      mem_comparePlanItems.mpr ⟨(t, e), hp, hitem⟩
    have htr : item.targetRelativePath = t := (planItemFor_fields hitem).2.2.1
    have hsz : item.sourceSize = e.sourceSize := (planItemFor_fields hitem).2.1
    have hmemB : ScanFile.mk t item.sourceSize ∈
        (comparePlanItems lfs rfs).map
          (fun it => ScanFile.mk it.targetRelativePath it.sourceSize) :=
      List.mem_map.mpr ⟨item, hmem_plan, by rw [htr]⟩
    cases hrB : rightSizeOf ((comparePlanItems lfs rfs).map
        (fun it => ScanFile.mk it.targetRelativePath it.sourceSize)) t with
    | none =>
      have := rightSizeOf_isSome_of_mem hmemB rfl
      rw [hrB] at this
      simp at this
    | some s =>
      obtain ⟨rf, hrf, hrel, hsize⟩ := rightSizeOf_some_mem hrB
      obtain ⟨it2, hit2, hrf_eq⟩ := List.mem_map.mp hrf
      have ht2 : it2.targetRelativePath = t := by
        rw [← hrf_eq] at hrel
        exact hrel
      have := plan_item_unique lfs rfs hfe hit2 ht2
      rw [hitem] at this
      injection this with hthis
      have hs : s = e.sourceSize := by
        rw [← hsize, ← hrf_eq]
        show it2.sourceSize = e.sourceSize
        rw [← hthis]
        exact hsz
      rw [hs]
      rfl
  | none =>
    have hrfs : rightSizeOf rfs t = some e.sourceSize :=
      planItemFor_eq_none_iff.mp hitem
    have hrB : rightSizeOf ((comparePlanItems lfs rfs).map
        (fun it => ScanFile.mk it.targetRelativePath it.sourceSize)) t = none := by
      cases hrB : rightSizeOf _ t with
      | none => rfl
      | some s =>
        obtain ⟨rf, hrf, hrel, _⟩ := rightSizeOf_some_mem hrB
        obtain ⟨it2, hit2, hrf_eq⟩ := List.mem_map.mp hrf
        have ht2 : it2.targetRelativePath = t := by
          rw [← hrf_eq] at hrel
          exact hrel
        have := plan_item_unique lfs rfs hfe hit2 ht2
        rw [hitem] at this
        exact absurd this (fun hx => Option.noConfusion hx)
    rw [hrB]
    have hA : rightSizeOf (rfs.filter
        (fun rf : ScanFile =>
          !(planTargets (comparePlanItems lfs rfs)).contains rf.relPath)) t =
        rightSizeOf rfs t := by
      apply rightSizeOf_filter
      intro rf hm hrel
      rw [hrel]
      have hnt : t ∉ planTargets (comparePlanItems lfs rfs) := by
        intro hmem
        obtain ⟨it2, hit2, ht2⟩ := List.mem_map.mp hmem
        have := plan_item_unique lfs rfs hfe hit2 ht2
        rw [hitem] at this
        exact absurd this (fun hx => Option.noConfusion hx)
      simp [hnt]
    rw [hA, hrfs]
    rfl

/-- C7 counterexample: source `_v1.txt` maps to the hidden target
`.txt`; after a successful sync the rescan skips it, so the second plan
is not empty. -/
theorem comparePlanItems_idempotent_counterexample :
    comparePlanItems [⟨["_v1.txt"], 3⟩]
        (rescanAfterSync [] (comparePlanItems [⟨["_v1.txt"], 3⟩] [])) =
      comparePlanItems [⟨["_v1.txt"], 3⟩] [] ∧
    (comparePlanItems [⟨["_v1.txt"], 3⟩] []).length = 1 := by
  refine ⟨by decide, by decide⟩

/-- Witness for C7's amended theorem on a small visible tree. -/
theorem comparePlanItems_idempotent_witness :
    (∀ rf ∈ ([⟨["b.txt"], 9⟩] : List ScanFile), scanVisible rf = true) ∧
    (∀ it ∈ comparePlanItems [⟨["folder", "doc_v3.txt"], 5⟩] [⟨["b.txt"], 9⟩],
      scanVisible (ScanFile.mk it.targetRelativePath it.sourceSize) = true) ∧
    comparePlanItems [⟨["folder", "doc_v3.txt"], 5⟩]
      (rescanAfterSync [⟨["b.txt"], 9⟩]
        (comparePlanItems [⟨["folder", "doc_v3.txt"], 5⟩] [⟨["b.txt"], 9⟩])) = [] :=
  ⟨by decide, by decide,
    comparePlanItems_idempotent [⟨["folder", "doc_v3.txt"], 5⟩] [⟨["b.txt"], 9⟩]
      (by decide) (by decide)⟩

/-! ## C8: processing order in a sequential run -/

/-- C8 counterexample: a lex-sorted plan holding a large file before a
small one is processed small-first, not in lexicographic order. -/
theorem sequentialOrder_counterexample :
    List.Pairwise (fun a b => planItemLe a b = true)
      ([{ sourceRelativePath := ["a_v1.bin"], sourceSize := 10,
          targetRelativePath := ["a.bin"], version := 1,
          destinationExists := false, destinationSize := none },
        { sourceRelativePath := ["b_v1.txt"], sourceSize := 1,
          targetRelativePath := ["b.txt"], version := 1,
          destinationExists := false, destinationSize := none }] :
        List PlanItem) ∧
    sequentialOrder
      [{ sourceRelativePath := ["a_v1.bin"], sourceSize := 10,
         targetRelativePath := ["a.bin"], version := 1,
         destinationExists := false, destinationSize := none },
       { sourceRelativePath := ["b_v1.txt"], sourceSize := 1,
         targetRelativePath := ["b.txt"], version := 1,
         destinationExists := false, destinationSize := none }] [] 4 =
      [{ sourceRelativePath := ["b_v1.txt"], sourceSize := 1,
         targetRelativePath := ["b.txt"], version := 1,
         destinationExists := false, destinationSize := none },
       { sourceRelativePath := ["a_v1.bin"], sourceSize := 10,
         targetRelativePath := ["a.bin"], version := 1,
         destinationExists := false, destinationSize := none }] ∧
    ¬ List.Pairwise (fun a b => planItemLe a b = true)
      (sequentialOrder
        [{ sourceRelativePath := ["a_v1.bin"], sourceSize := 10,
           targetRelativePath := ["a.bin"], version := 1,
           destinationExists := false, destinationSize := none },
         { sourceRelativePath := ["b_v1.txt"], sourceSize := 1,
           targetRelativePath := ["b.txt"], version := 1,
           destinationExists := false, destinationSize := none }] [] 4) := by
  refine ⟨by decide, by decide, by decide⟩

/-- C8, amended: a sequential run processes the pending small files in
plan order, then the pending large files in plan order; each class is
lex-sorted when the plan is, and a single-class plan is processed in
plan (hence lex) order. -/
theorem sequentialOrder_small_before_large (plan : List PlanItem)
    (completed : List (List String)) (threshold : Nat)
    (hs : List.Pairwise (fun a b => planItemLe a b = true) plan) :
    sequentialOrder plan completed threshold =
      (plan.filter (fun it => !completed.contains it.targetRelativePath)).filter
          (fun it => decide (it.sourceSize ≤ threshold)) ++
        (plan.filter (fun it => !completed.contains it.targetRelativePath)).filter
          (fun it => decide (threshold < it.sourceSize)) ∧
    List.Pairwise (fun a b => planItemLe a b = true)
      ((plan.filter (fun it => !completed.contains it.targetRelativePath)).filter
        (fun it => decide (it.sourceSize ≤ threshold))) ∧
    List.Pairwise (fun a b => planItemLe a b = true)
      ((plan.filter (fun it => !completed.contains it.targetRelativePath)).filter
        (fun it => decide (threshold < it.sourceSize))) ∧
    ((plan.filter (fun it => !completed.contains it.targetRelativePath)).filter
        (fun it => decide (threshold < it.sourceSize)) = [] →
      sequentialOrder plan completed threshold =
        plan.filter (fun it => !completed.contains it.targetRelativePath)) ∧
    ((plan.filter (fun it => !completed.contains it.targetRelativePath)).filter
        (fun it => decide (it.sourceSize ≤ threshold)) = [] →
      sequentialOrder plan completed threshold =
        plan.filter (fun it => !completed.contains it.targetRelativePath)) := by
  refine ⟨rfl, ?_, ?_, ?_, ?_⟩
  · exact List.Pairwise.sublist
      ((List.filter_sublist _).trans (List.filter_sublist _)) hs
  · exact List.Pairwise.sublist
      ((List.filter_sublist _).trans (List.filter_sublist _)) hs
  · intro hlarge
    have hall : ∀ it ∈ plan.filter
        (fun it => !completed.contains it.targetRelativePath),
        decide (it.sourceSize ≤ threshold) = true := by
      intro it hmem
      have h1 := List.filter_eq_nil_iff.mp hlarge it hmem
      simp only [decide_eq_true_eq] at h1 ⊢
      omega
    show _ ++ _ = _
    rw [hlarge, List.append_nil, List.filter_eq_self.mpr hall]
  · intro hsmall
    have hall : ∀ it ∈ plan.filter
        (fun it => !completed.contains it.targetRelativePath),
        decide (threshold < it.sourceSize) = true := by
      intro it hmem
      have h1 := List.filter_eq_nil_iff.mp hsmall it hmem
      simp only [decide_eq_true_eq] at h1 ⊢
      omega
    show _ ++ _ = _
    rw [hsmall, List.nil_append, List.filter_eq_self.mpr hall]

/-- Witness for C8's amended theorem on a two-item plan. -/
theorem sequentialOrder_small_before_large_witness :
    List.Pairwise (fun a b => planItemLe a b = true)
      ([{ sourceRelativePath := ["a_v1.bin"], sourceSize := 10,
          targetRelativePath := ["a.bin"], version := 1,
          destinationExists := false, destinationSize := none },
        { sourceRelativePath := ["b_v1.txt"], sourceSize := 1,
          targetRelativePath := ["b.txt"], version := 1,
          destinationExists := false, destinationSize := none }] :
        List PlanItem) ∧
    sequentialOrder
      [{ sourceRelativePath := ["a_v1.bin"], sourceSize := 10,
         targetRelativePath := ["a.bin"], version := 1,
         destinationExists := false, destinationSize := none },
       { sourceRelativePath := ["b_v1.txt"], sourceSize := 1,
         targetRelativePath := ["b.txt"], version := 1,
         destinationExists := false, destinationSize := none }] [] 4 =
      ([{ sourceRelativePath := ["a_v1.bin"], sourceSize := 10,
          targetRelativePath := ["a.bin"], version := 1,
          destinationExists := false, destinationSize := none },
        { sourceRelativePath := ["b_v1.txt"], sourceSize := 1,
          targetRelativePath := ["b.txt"], version := 1,
          destinationExists := false, destinationSize := none }].filter
            (fun it => !([] : List (List String)).contains it.targetRelativePath)).filter
          (fun it => decide (it.sourceSize ≤ 4)) ++
        ([{ sourceRelativePath := ["a_v1.bin"], sourceSize := 10,
            targetRelativePath := ["a.bin"], version := 1,
            destinationExists := false, destinationSize := none },
          { sourceRelativePath := ["b_v1.txt"], sourceSize := 1,
            targetRelativePath := ["b.txt"], version := 1,
            destinationExists := false, destinationSize := none }].filter
              (fun it => !([] : List (List String)).contains it.targetRelativePath)).filter
          (fun it => decide (4 < it.sourceSize)) :=
  ⟨by decide,
    (sequentialOrder_small_before_large
      [{ sourceRelativePath := ["a_v1.bin"], sourceSize := 10,
         targetRelativePath := ["a.bin"], version := 1,
         destinationExists := false, destinationSize := none },
       { sourceRelativePath := ["b_v1.txt"], sourceSize := 1,
         targetRelativePath := ["b.txt"], version := 1,
         destinationExists := false, destinationSize := none }] [] 4 (by decide)).1⟩

/-! ## Filesystem-map lemmas for the transaction -/

theorem fsGet_fsSet_self (fs : Fsys) (p : List String) (c : Content) :
    fsGet (fsSet fs p c) p = some c := by
  induction fs with
  | nil =>
    show (if p = p then some c else fsGet [] p) = some c
    rw [if_pos rfl]
  | cons q fs ih =>
    show fsGet (if q.1 = p then (p, c) :: fs else q :: fsSet fs p c) p = some c
    by_cases hq : q.1 = p
    · rw [if_pos hq]
      show (if p = p then some c else fsGet fs p) = some c
      rw [if_pos rfl]
    · rw [if_neg hq]
      show (if q.1 = p then some q.2 else fsGet (fsSet fs p c) p) = some c
      rw [if_neg hq]
      exact ih

theorem fsGet_fsSet_ne (fs : Fsys) {p q : List String} (c : Content)
    (hne : q ≠ p) : fsGet (fsSet fs p c) q = fsGet fs q := by
  induction fs with
  | nil =>
    show (if p = q then some c else fsGet [] q) = fsGet [] q
    rw [if_neg (fun hx => hne hx.symm)]
  | cons r fs ih =>
    show fsGet (if r.1 = p then (p, c) :: fs else r :: fsSet fs p c) q = _
    by_cases hr : r.1 = p
    · rw [if_pos hr]
      show (if p = q then some c else fsGet fs q) = _
      rw [if_neg (fun hx => hne hx.symm)]
      show _ = (if r.1 = q then some r.2 else fsGet fs q)
      rw [if_neg (by rw [hr]; exact fun hx => hne hx.symm)]
    · rw [if_neg hr]
      show (if r.1 = q then some r.2 else fsGet (fsSet fs p c) q) =
        (if r.1 = q then some r.2 else fsGet fs q)
      by_cases hrq : r.1 = q
      · rw [if_pos hrq, if_pos hrq]
      · rw [if_neg hrq, if_neg hrq]
        exact ih

theorem fsGet_fsRemove_self (fs : Fsys) (p : List String) :
    fsGet (fsRemove fs p) p = none := by
  induction fs with
  | nil => rfl
  | cons q fs ih =>
    show fsGet (List.filter (fun r => r.1 ≠ p) (q :: fs)) p = none
    by_cases hq : q.1 = p
    · rw [List.filter_cons_of_neg (by simp [hq])]
      exact ih
    · rw [List.filter_cons_of_pos (by simp [hq])]
      show (if q.1 = p then some q.2 else fsGet (fsRemove fs p) p) = none
      rw [if_neg hq]
      exact ih

theorem fsGet_fsRemove_ne (fs : Fsys) {p q : List String} (hne : q ≠ p) :
    fsGet (fsRemove fs p) q = fsGet fs q := by
  induction fs with
  | nil => rfl
  | cons r fs ih =>
    show fsGet (List.filter (fun x => x.1 ≠ p) (r :: fs)) q = _
    by_cases hr : r.1 = p
    · rw [List.filter_cons_of_neg (by simp [hr])]
      rw [show fsGet (List.filter (fun x => decide (x.1 ≠ p)) fs) q = fsGet fs q
        from ih]
      show _ = (if r.1 = q then some r.2 else fsGet fs q)
      rw [if_neg (by rw [hr]; exact fun hx => hne hx.symm)]
    · rw [List.filter_cons_of_pos (by simp [hr])]
      show (if r.1 = q then some r.2 else fsGet (fsRemove fs p) q) =
        (if r.1 = q then some r.2 else fsGet fs q)
      by_cases hrq : r.1 = q
      · rw [if_pos hrq, if_pos hrq]
      · rw [if_neg hrq, if_neg hrq]
        exact ih

theorem activeGet_activeSet_self (m : ActiveMap) (p : List String)
    (e : ActiveEntry) : activeGet (activeSet m p e) p = some e := by
  induction m with
  | nil =>
    show (if p = p then some e else activeGet [] p) = some e
    rw [if_pos rfl]
  | cons q m ih =>
    show activeGet (if q.1 = p then (p, e) :: m else q :: activeSet m p e) p = _
    by_cases hq : q.1 = p
    · rw [if_pos hq]
      show (if p = p then some e else activeGet m p) = some e
      rw [if_pos rfl]
    · rw [if_neg hq]
      show (if q.1 = p then some q.2 else activeGet (activeSet m p e) p) = some e
      rw [if_neg hq]
      exact ih

theorem activeGet_activeDel_self (m : ActiveMap) (p : List String) :
    activeGet (activeDel m p) p = none := by
  induction m with
  | nil => rfl
  | cons q m ih =>
    show activeGet (List.filter (fun r => r.1 ≠ p) (q :: m)) p = none
    by_cases hq : q.1 = p
    · rw [List.filter_cons_of_neg (by simp [hq])]
      exact ih
    · rw [List.filter_cons_of_pos (by simp [hq])]
      show (if q.1 = p then some q.2 else activeGet (activeDel m p) p) = none
      rw [if_neg hq]
      exact ih

/-- The backup path never collides with the target: its file name is 16
characters longer. -/
theorem backupPathOf_ne (t : List String) : backupPathOf t ≠ t := by
  intro h
  have h1 := congrArg (fun l => (List.getLastD l "").length) h
  simp only [backupPathOf] at h1
  rw [List.getLastD_concat] at h1
  rw [String.length_append, String.length_append] at h1
  have hfn : fileNameOf t = t.getLastD "" := rfl
  rw [← hfn] at h1
  have hd : ".".length = 1 := rfl
  have hs : ".lempicka-tmp-0".length = 15 := rfl
  rw [hd, hs] at h1
  omega

/-! ## C1: the rollback can destroy a pre-existing destination -/

/-- C1 failing input: the destination holds `[7, 7, 7]` and the source
access check fails before any backup is taken.  The catch-block's
unconditional `fs.unlink(targetPath)` deletes the pre-transaction
destination, and with no backup nothing restores it: after rollback the
destination is absent, not its pre-transaction content. -/
theorem processItemAttempt_deletes_existing_destination :
    (processItemAttempt [(["dst", "clip.txt"], [7, 7, 7])] []
        { sourcePath := ["src", "clip_v2.txt"],
          targetPath := ["dst", "clip.txt"] }
        0 { cleanScript with sourceAccessFails := true }).outcome =
      TxOutcome.failed .sourceUnavailable ∧
    fsGet [(["dst", "clip.txt"], [7, 7, 7])] ["dst", "clip.txt"] =
      some [7, 7, 7] ∧
    fsGet (processItemAttempt [(["dst", "clip.txt"], [7, 7, 7])] []
        { sourcePath := ["src", "clip_v2.txt"],
          targetPath := ["dst", "clip.txt"] }
        0 { cleanScript with sourceAccessFails := true }).fs
      ["dst", "clip.txt"] = none := by
  refine ⟨by decide, by decide, by decide⟩

/-! ## C6: restore-failure handling in the rollback -/

/-- C6 counterexample: a mid-copy failure with a backup taken, whose
restoring rename fails with `ENOENT`.  The in-run rollback raises
`RESTORE_FAILED` (the claim says `ENOENT` is tolerated) and the
`active_entries` record survives (the claim says it is removed). -/
theorem rollback_enoent_counterexample :
    (processItemAttempt
        [(["right", "clip.txt"], [9, 9]), (["left", "clip_v2.txt"], [1, 2, 3])]
        []
        { sourcePath := ["left", "clip_v2.txt"],
          targetPath := ["right", "clip.txt"] }
        0
        { sourceAccessFails := false, copyFailsAfter := some 1,
          backupUnlinkFails := false, rollbackUnlinkFails := false,
          restoreRenameErr := some .enoent }).outcome =
      TxOutcome.failed .restoreFailed ∧
    activeGet (processItemAttempt
        [(["right", "clip.txt"], [9, 9]), (["left", "clip_v2.txt"], [1, 2, 3])]
        []
        { sourcePath := ["left", "clip_v2.txt"],
          targetPath := ["right", "clip.txt"] }
        0
        { sourceAccessFails := false, copyFailsAfter := some 1,
          backupUnlinkFails := false, rollbackUnlinkFails := false,
          restoreRenameErr := some .enoent }).active
      ["right", "clip.txt"] ≠ none := by
  refine ⟨by decide, by decide⟩

/-- C6, amended: when a backup exists and the copy fails mid-stream,
the in-run rollback raises `RESTORE_FAILED` for *any* restoring-rename
failure (`ENOENT` included) and then keeps the `active_entries` record;
when the restore succeeds, the destination is byte-for-byte the backed
up pre-transaction content and the record is removed.  `ENOENT` is
tolerated only in `recoverActiveEntriesFromJournal`. -/
theorem rollback_restore_behavior (fs : Fsys) (active : ActiveMap)
    (item : TxItem) (attempt k : Nat) (script : AttemptScript) (c : Content)
    (hdest : fsGet fs item.targetPath = some c)
    (hsrc : script.sourceAccessFails = false)
    (hcopy : script.copyFailsAfter = some k) :
    ((∃ e, script.restoreRenameErr = some e) →
      (processItemAttempt fs active item attempt script).outcome =
        TxOutcome.failed .restoreFailed ∧
      activeGet (processItemAttempt fs active item attempt script).active
        item.targetPath ≠ none) ∧
    (script.restoreRenameErr = none →
      (processItemAttempt fs active item attempt script).outcome =
        TxOutcome.failed .copyFailed ∧
      fsGet (processItemAttempt fs active item attempt script).fs
        item.targetPath = some c ∧
      activeGet (processItemAttempt fs active item attempt script).active
        item.targetPath = none) ∧
    (∀ (fs' : Fsys) (entry : ActiveEntry) (b : List String),
      entry.backupPath = some b →
      recoverEntry fs' entry false (some .enoent) =
        Except.ok (fsRemove fs' entry.targetPath)) := by
  have hb := backupPathOf_ne item.targetPath
  have hred : processItemAttempt fs active item attempt script =
      rollbackStep
        (fsSet
          (fsSet (fsRemove fs item.targetPath)
            (backupPathOf item.targetPath) c)
          item.targetPath (((fsGet fs item.sourcePath).getD []).take k))
        (activeSet
          (activeSet active item.targetPath
            { sourcePath := item.sourcePath, targetPath := item.targetPath
              backupPath := none, attempt := attempt + 1 })
          item.targetPath
          { sourcePath := item.sourcePath, targetPath := item.targetPath
            backupPath := some (backupPathOf item.targetPath)
            attempt := attempt + 1 })
        item (some (backupPathOf item.targetPath)) script .copyFailed
        (((fsGet fs item.sourcePath).getD []).take k).length := by
    unfold processItemAttempt
    rw [hsrc, hdest, hcopy]
    rfl
  refine ⟨?_, ?_, ?_⟩
  · rintro ⟨e, he⟩
    rw [hred]
    unfold rollbackStep
    rw [he]
    refine ⟨rfl, ?_⟩
    rw [activeGet_activeSet_self]
    exact fun hx => Option.noConfusion hx
  · intro he
    rw [hred]
    unfold rollbackStep
    rw [he]
    dsimp only
    have hget : fsGet
        (if script.rollbackUnlinkFails then
          fsSet
            (fsSet (fsRemove fs item.targetPath)
              (backupPathOf item.targetPath) c)
            item.targetPath (((fsGet fs item.sourcePath).getD []).take k)
        else
          fsRemove
            (fsSet
              (fsSet (fsRemove fs item.targetPath)
                (backupPathOf item.targetPath) c)
              item.targetPath (((fsGet fs item.sourcePath).getD []).take k))
            item.targetPath)
        (backupPathOf item.targetPath) = some c := by
      by_cases hru : script.rollbackUnlinkFails
      · rw [if_pos hru, fsGet_fsSet_ne _ _ hb, fsGet_fsSet_self]
      · rw [if_neg hru, fsGet_fsRemove_ne _ hb, fsGet_fsSet_ne _ _ hb,
          fsGet_fsSet_self]
    rw [hget]
    dsimp only
    refine ⟨rfl, ?_, ?_⟩
    · rw [fsGet_fsSet_self]
    · rw [activeGet_activeDel_self]
  · intro fs' entry b hbp
    unfold recoverEntry
    rw [hbp]
    rfl

/-- Witness for C6's amended theorem: the `ENOENT`-restore branch on a
concrete filesystem. -/
theorem rollback_restore_behavior_witness :
    fsGet [(["right", "clip.txt"], [9, 9]),
        (["left", "clip_v2.txt"], [1, 2, 3])] ["right", "clip.txt"] =
      some [9, 9] ∧
    ((processItemAttempt
        [(["right", "clip.txt"], [9, 9]), (["left", "clip_v2.txt"], [1, 2, 3])]
        []
        { sourcePath := ["left", "clip_v2.txt"],
          targetPath := ["right", "clip.txt"] }
        0
        { sourceAccessFails := false, copyFailsAfter := some 1,
          backupUnlinkFails := false, rollbackUnlinkFails := false,
          restoreRenameErr := some .enoent }).outcome =
      TxOutcome.failed .restoreFailed ∧
    activeGet (processItemAttempt
        [(["right", "clip.txt"], [9, 9]), (["left", "clip_v2.txt"], [1, 2, 3])]
        []
        { sourcePath := ["left", "clip_v2.txt"],
          targetPath := ["right", "clip.txt"] }
        0
        { sourceAccessFails := false, copyFailsAfter := some 1,
          backupUnlinkFails := false, rollbackUnlinkFails := false,
          restoreRenameErr := some .enoent }).active
      ["right", "clip.txt"] ≠ none) :=
  ⟨by decide,
    (rollback_restore_behavior
        [(["right", "clip.txt"], [9, 9]), (["left", "clip_v2.txt"], [1, 2, 3])]
        []
        { sourcePath := ["left", "clip_v2.txt"],
          targetPath := ["right", "clip.txt"] }
        0 1
        { sourceAccessFails := false, copyFailsAfter := some 1,
          backupUnlinkFails := false, rollbackUnlinkFails := false,
          restoreRenameErr := some .enoent }
        [9, 9] (by decide) (by decide) (by decide)).1 ⟨.enoent, by decide⟩⟩

/-! ## C10: the byte counter only grows -/

theorem runAttempts_append (st : RunState)
    (s1 s2 : List (TxItem × Nat × AttemptScript)) :
    runAttempts st (s1 ++ s2) = runAttempts (runAttempts st s1) s2 :=
  List.foldl_append _ _ _ _

theorem runAttempts_bytes_le (steps : List (TxItem × Nat × AttemptScript)) :
    ∀ st : RunState, st.bytes ≤ (runAttempts st steps).bytes := by
  induction steps with
  | nil => intro st; exact Nat.le_refl _
  | cons s steps ih =>
    intro st
    have h1 : st.bytes ≤ (runStep st s).bytes := by
      show st.bytes ≤ st.bytes + _
      exact Nat.le_add_right _ _
    exact Nat.le_trans h1 (ih (runStep st s))

/-- C10: along any scripted run, `bytesTransferred` never decreases —
chunk bytes are only ever added, and a rollback subtracts nothing — so
a run with a failed and retried attempt ends with `bytesCopied`
strictly above the total size of the files actually committed. -/
theorem bytesTransferred_monotone (st : RunState)
    (steps : List (TxItem × Nat × AttemptScript)) (i j : Nat) (h : i ≤ j) :
    bytesAfter st steps i ≤ bytesAfter st steps j ∧
    ((runAttempts
        { fs := [(["src", "f_v1.txt"], [1, 2, 3])], active := [],
          bytes := 0, committedSizes := [] }
        [({ sourcePath := ["src", "f_v1.txt"], targetPath := ["dst", "f.txt"] },
            0, { cleanScript with copyFailsAfter := some 2 }),
          ({ sourcePath := ["src", "f_v1.txt"], targetPath := ["dst", "f.txt"] },
            1, cleanScript)]).bytes = 5 ∧
      (runAttempts
        { fs := [(["src", "f_v1.txt"], [1, 2, 3])], active := [],
          bytes := 0, committedSizes := [] }
        [({ sourcePath := ["src", "f_v1.txt"], targetPath := ["dst", "f.txt"] },
            0, { cleanScript with copyFailsAfter := some 2 }),
          ({ sourcePath := ["src", "f_v1.txt"], targetPath := ["dst", "f.txt"] },
            1, cleanScript)]).committedSizes.sum = 3) := by
  refine ⟨?_, by decide, by decide⟩
  have hj : j = i + (j - i) := by omega
  rw [bytesAfter, bytesAfter, hj, List.take_add, runAttempts_append]
  exact runAttempts_bytes_le _ _

/-- Witness for C10 at a concrete run and indices. -/
theorem bytesTransferred_monotone_witness :
    (1 ≤ 2) ∧
    bytesAfter
      { fs := [(["src", "f_v1.txt"], [1, 2, 3])], active := [],
        bytes := 0, committedSizes := [] }
      [({ sourcePath := ["src", "f_v1.txt"], targetPath := ["dst", "f.txt"] },
          0, { cleanScript with copyFailsAfter := some 2 }),
        ({ sourcePath := ["src", "f_v1.txt"], targetPath := ["dst", "f.txt"] },
          1, cleanScript)] 1 ≤
    bytesAfter
      { fs := [(["src", "f_v1.txt"], [1, 2, 3])], active := [],
        bytes := 0, committedSizes := [] }
      [({ sourcePath := ["src", "f_v1.txt"], targetPath := ["dst", "f.txt"] },
          0, { cleanScript with copyFailsAfter := some 2 }),
        ({ sourcePath := ["src", "f_v1.txt"], targetPath := ["dst", "f.txt"] },
          1, cleanScript)] 2 :=
  ⟨by decide,
    (bytesTransferred_monotone
      { fs := [(["src", "f_v1.txt"], [1, 2, 3])], active := [],
        bytes := 0, committedSizes := [] }
      [({ sourcePath := ["src", "f_v1.txt"], targetPath := ["dst", "f.txt"] },
          0, { cleanScript with copyFailsAfter := some 2 }),
        ({ sourcePath := ["src", "f_v1.txt"], targetPath := ["dst", "f.txt"] },
          1, cleanScript)] 1 2 (by decide)).1⟩

/-! ## C2: equal roots sail through the precondition stage -/

/-- C2 failing input: `buildComparePlan` called with the same readable
directory as both roots.  The precondition stage checks each root only
in isolation, so the call succeeds — and even schedules pending work —
where the spec (and the repository's own test
`buildComparePlan rejects root and overlapping directories`) requires a
rejection. -/
theorem buildComparePlan_accepts_equal_roots :
    buildComparePlan [(["shared"], { isDirectory := true, readable := true })]
        ["shared"] ["shared"] [⟨["a_v1.txt"], 3⟩] [⟨["a_v1.txt"], 3⟩] =
      Except.ok
        { leftRoot := ["shared"], rightRoot := ["shared"],
          plan := [{ sourceRelativePath := ["a_v1.txt"], sourceSize := 3,
                     targetRelativePath := ["a.txt"], version := 1,
                     destinationExists := false, destinationSize := none }],
          totalCandidates := 1, pendingCount := 1 } := by
  rfl

end LempickaSync
